import Mathlib

/-!
Verification of the FUEL package's `Household` analysis engine
(`src/FUEL/household.py`) against its natural-language specification.

Embedding conventions:
* channel readings (stove temperatures, fuel weights) are rationals (`ℚ`);
* timestamps are integers counting seconds (`ℤ`); a Python `timedelta`'s
  `.days` field is floor division by 86400 and its `.seconds` field is the
  nonnegative remainder modulo 86400, which on `ℤ` are exactly `/` and `%`
  (`Int.ediv` / `Int.emod`) for the positive divisor 86400;
* Python dictionaries keyed by day number are association lists
  `List (ℕ × ℚ)` in insertion order, with `updateD` reproducing
  `dict.update` (overwrite in place, else append);
* fallible Python code (IndexError / KeyError / NameError / ValueError)
  is embedded with `Option` / `Except`.
-/

/-- Python `abs` on a rational number. -/
def pyAbs (q : ℚ) : ℚ := if q < 0 then -q else q

/-- The `.days` field of a Python `timedelta` of `t` seconds:
floor division by 86400 (on `ℤ`, `/` is `Int.ediv`, which is floor
division for a positive divisor). -/
def pyDays (t : ℤ) : ℤ := t / 86400

/-- The `.seconds` field of a Python `timedelta` of `t` seconds:
the remainder of `t` modulo 86400, always in `[0, 86400)`
(on `ℤ`, `%` is `Int.emod`, nonnegative for a positive divisor). -/
def pySeconds (t : ℤ) : ℤ := t % 86400

/-- Lookup in a Python-dict association list (first matching key). -/
def dlookup (d : List (ℕ × ℚ)) (k : ℕ) : Option ℚ :=
  match d with
  | [] => none
  | (k', v) :: r => if k' = k then some v else dlookup r k

/-- Python `dict.update({k: v})`: overwrite the value in place if the key
is present, otherwise append the pair at the end (insertion order). -/
def updateD (d : List (ℕ × ℚ)) (k : ℕ) (v : ℚ) : List (ℕ × ℚ) :=
  if (dlookup d k).isSome then
    d.map (fun p => if p.1 = k then (k, v) else p)
  else d ++ [(k, v)]

/-- The keys of a day-bucket dictionary, in insertion order. -/
def dictKeys (d : List (ℕ × ℚ)) : List ℕ := d.map Prod.fst

/-- The values of a day-bucket dictionary, in insertion order. -/
def dictVals (d : List (ℕ × ℚ)) : List ℚ := d.map Prod.snd

/-- The sum of all values recorded in a day-bucket dictionary. -/
def sumVals (d : List (ℕ × ℚ)) : ℚ := (d.map Prod.snd).sum

/-- A Python number as passed for the three `Household` thresholds: either
an `int` or a `float` (Python `type(x) != int` distinguishes the two). -/
inductive PyNum where
  | int (n : ℤ)
  | float (q : ℚ)
deriving DecidableEq

/-- Whether a Python value is an `int` that is `≥ 0`. -/
def isNonnegInt : PyNum → Bool
  | .int n => decide (0 ≤ n)
  | .float _ => false

/-- The threshold validation performed by `Household.__init__`
(src/FUEL/household.py lines 48-53): `time_between_events` must be a
nonnegative `int`, then `temp_threshold` must be a nonnegative `int`;
`weight_threshold` (line 69) is assigned without any check. -/
def initThresholdsCheck (tempThreshold timeBetweenEvents weightThreshold : PyNum) :
    Except String Unit :=
  if isNonnegInt timeBetweenEvents then
    if isNonnegInt tempThreshold then .ok ()
    else .error "The temperature threshold must be a positive integer!"
  else .error "The time between events must be a positive integer!"

/-- A subject argument as Python receives it after the type checks: either
a single string or a list of strings. -/
inductive SubjArg where
  | str (s : String)
  | list (l : List String)
deriving DecidableEq

/-- Iterating a Python string yields its characters as 1-character
strings. -/
def pyStrChars (s : String) : List String := s.data.map (fun c => String.mk [c])

/-- The elements produced by `for s in stove:` on a subject argument:
characters of a string, or the elements of a list. -/
def subjElems : SubjArg → List String
  | .str s => pyStrChars s
  | .list l => l

/-- The loop of `check_stove_type` (lines 94-98): append each element found
in the configured stove list, raise on the first element that is not. -/
def cstLoop (stoves : List String) : List String → List String → Except String (List String)
  | [], acc => .ok acc
  | s :: r, acc =>
    if s ∈ stoves then cstLoop stoves r (acc ++ [s])
    else .error (s ++ " not found in data set.")

/-- `Household.check_stove_type` (lines 71-102).  The sentinel `"All"`
returns the configured stoves; otherwise the argument is iterated
(characters of a string, elements of a list), unknown names raise at once,
and an empty result raises `'Stove not found in data set.'`. -/
def check_stove_type (stoves : List String) (arg : SubjArg) : Except String (List String) :=
  if arg = .str "All" then .ok stoves
  else
    match cstLoop stoves (subjElems arg) [] with
    | .error e => .error e
    | .ok st => if st = [] then .error "Stove not found in data set." else .ok st

/-- The loop of `check_fuel_type` (lines 128-130): keep the elements found
in the configured fuel list, silently dropping the others. -/
def cftLoop (fuels : List String) : List String → List String → List String
  | [], acc => acc
  | f :: r, acc => if f ∈ fuels then cftLoop fuels r (acc ++ [f]) else cftLoop fuels r acc

/-- `Household.check_fuel_type` (lines 104-133).  The sentinel `"All"`
returns the configured fuels; otherwise unknown names are dropped and an
error is raised only when no requested name is configured (the Python
message interpolates the last iterated element; on an empty argument the
variable is unbound and a `NameError` is raised instead, which this
embedding also represents as an error). -/
def check_fuel_type (fuels : List String) (arg : SubjArg) : Except String (List String) :=
  if arg = .str "All" then .ok fuels
  else
    match cftLoop fuels (subjElems arg) [] with
    | [] => .error ((subjElems arg).getLastD "" ++ " not found in data set.")
    | ft => .ok ft

/-- The argument validation performed by `Household.cooking_events`
(lines 152-155): any non-string argument — including a list — raises
`'Must input fuel type as a string!'`; a string is then passed to
`check_stove_type`. -/
def cooking_events_check (stoves : List String) (arg : SubjArg) : Except String (List String) :=
  match arg with
  | .list _ => .error "Must input fuel type as a string!"
  | .str s => check_stove_type stoves (.str s)

/-- Whether an `Except` result is an error (a raised Python exception). -/
def isErr (e : Except String (List String)) : Bool :=
  match e with
  | .error _ => true
  | .ok _ => false

/-- Modelled from the spec: `scipy.signal.find_peaks` is an external
library function whose code is not part of this repository; §4.1 defines a
local maximum as a sample strictly greater than both neighbours.  This
returns, in scan order, every index `i` with `col[i-1] < col[i]` and
`col[i+1] < col[i]`. -/
def strictLocalMaxima (col : List ℚ) : List ℕ :=
  (List.range col.length).filter (fun i =>
    decide (0 < i) && decide (i + 1 < col.length) &&
    decide (col.getD (i - 1) 0 < col.getD i 0) &&
    decide (col.getD (i + 1) 0 < col.getD i 0))

/-- Modelled from the spec: the processing priority of §4.1's distance
policy — higher peaks first, ties resolved in favour of the first
encountered in scan order. -/
def peakPriority (col : List ℚ) (i j : ℕ) : Prop :=
  col.getD j 0 < col.getD i 0 ∨ (col.getD i 0 = col.getD j 0 ∧ i ≤ j)

instance (col : List ℚ) : DecidableRel (peakPriority col) := fun i j => by
  unfold peakPriority
  infer_instance

/-- The horizontal distance between two sample indices. -/
def natDist (i j : ℕ) : ℕ := max i j - min i j

/-- Modelled from the spec: §4.1's greedy distance filter — process the
candidates in priority order, keeping a candidate exactly when it is at
distance `≥ d` from every already-kept peak. -/
def keepByDistance (d : ℕ) : List ℕ → List ℕ → List ℕ
  | [], kept => kept
  | i :: rest, kept =>
    if kept.all (fun j => decide (d ≤ natDist i j)) then
      keepByDistance d rest (kept ++ [i])
    else keepByDistance d rest kept

/-- Modelled from the spec: the Peak Detector contract of §4.1 —
the ordered sequence of sample indices that are strict local maxima with
reading `≥ h`, such that no two returned indices are closer than `d`
samples, ties resolved by preferring the higher peak and, among
equal-height peaks, the first in scan order. -/
def findPeaks (col : List ℚ) (h : ℚ) (d : ℕ) : List ℕ :=
  let cands := (strictLocalMaxima col).filter (fun i => decide (h ≤ col.getD i 0))
  let ordered := cands.insertionSort (peakPriority col)
  (keepByDistance d ordered []).insertionSort (· ≤ ·)

/-- The index of the first zero reading in a list, scanning forward
(the `enumerate` loops of `cooking_durations`, lines 311-319). -/
def scanZeroIdx : List ℚ → Option ℕ
  | [] => none
  | v :: r => if v = 0 then some 0 else (scanZeroIdx r).map (· + 1)

/-- The backward scan of `cooking_durations` (lines 308, 311-314):
iterate over `cooking_temps[:i]` reversed and set `start_time = i - j` at
the first zero reading, where `j` counts positions from the end. -/
def findStart (col : List ℚ) (i : ℕ) : Option ℕ :=
  (scanZeroIdx (col.take i).reverse).map (fun j => i - j)

/-- The forward scan of `cooking_durations` (lines 309, 316-319):
iterate over `cooking_temps[i:]` and set `end_time = i + k` at the first
zero reading. -/
def findEnd (col : List ℚ) (i : ℕ) : Option ℕ :=
  (scanZeroIdx (col.drop i)).map (fun k => i + k)

/-- The loop of `cooking_durations` (lines 306-320).  The Python
`start_time` / `end_time` variables persist between iterations, so a scan
that finds no zero silently reuses the previous peak's boundary; on the
first peak an unbound variable raises a `NameError`, embedded as `none`. -/
def cdGo (col : List ℚ) (stPrev enPrev : Option ℕ) :
    List ℕ → List (ℕ × ℕ) → Option (List (ℕ × ℕ))
  | [], acc => some acc
  | i :: rest, acc =>
    let st := match findStart col i with
      | some s => some s
      | none => stPrev
    let en := match findEnd col i with
      | some e => some e
      | none => enPrev
    match st, en with
    | some s, some e => cdGo col (some s) (some e) rest (acc ++ [(s, e)])
    | _, _ => none

/-- `cooking_durations` (lines 289-322): resolve each cached peak index to
a `(start, end)` boundary pair. -/
def cookingDurations (col : List ℚ) (peaks : List ℕ) : Option (List (ℕ × ℕ)) :=
  cdGo col none none peaks []

/-- The loop of `find_significant_changes` (lines 207-221) over
`peaks[1:]`.  A candidate is skipped when `abs(new_weight - weight)` is
below the threshold, otherwise appended with `weight` updated; inside the
loop, whenever the current element equals `peaks[-1]` (`plast`), the final
sample of the channel is appended if its reading is strictly below the
last kept weight.  Out-of-range indexing is `none`. -/
def fscGo (col : List ℚ) (thr : ℚ) (plast : ℕ) :
    List ℕ → ℚ → List ℕ → Option (List ℕ)
  | [], _, acc => some acc
  | i :: rest, weight, acc =>
    match col.get? i with
    | none => none
    | some nw =>
      let step := if pyAbs (nw - weight) < thr then (acc, weight) else (acc ++ [i], nw)
      if i = plast then
        match col.get? (col.length - 1) with
        | none => none
        | some lastW =>
          if lastW < step.2 then fscGo col thr plast rest step.2 (step.1 ++ [col.length - 1])
          else fscGo col thr plast rest step.2 step.1
      else fscGo col thr plast rest step.2 step.1

/-- `find_significant_changes` (lines 192-222): seed with `peaks[0]`
(raising an `IndexError`, i.e. `none`, on an empty candidate list) and run
the thinning loop over `peaks[1:]`. -/
def find_significant_changes (col : List ℚ) (thr : ℚ) (peaks : List ℕ) :
    Option (List ℕ) :=
  match peaks with
  | [] => none
  | p0 :: rest =>
    match col.get? p0 with
    | none => none
    | some w0 => fscGo col thr ((p0 :: rest).getLastD 0) rest w0 [p0]

/-- The keep-filter described by the claim: keep each candidate exactly
when the absolute difference between its reading and the last kept
reading is at least the threshold, updating the last kept reading on
keep.  Returns the kept indices together with the last kept reading. -/
def keepFold (col : List ℚ) (thr : ℚ) : List ℕ → ℚ → List ℕ → List ℕ × ℚ
  | [], w, acc => (acc, w)
  | i :: r, w, acc =>
    if thr ≤ pyAbs (col.getD i 0 - w) then keepFold col thr r (col.getD i 0) (acc ++ [i])
    else keepFold col thr r w acc

/-- The significant-change filter as the claim states it, amended only in
that the final-sample append requires at least two candidates (the code's
final-sample check lives inside the loop over `peaks[1:]`, which a
singleton candidate list never enters): always keep the first candidate,
keep each later candidate iff its reading moved by at least the
threshold, and afterwards append the channel's final index exactly when
the final reading is strictly below the last kept reading. -/
def sigChangesSpec (col : List ℚ) (thr : ℚ) (peaks : List ℕ) : List ℕ :=
  match peaks with
  | [] => []
  | p0 :: rest =>
    let kw := keepFold col thr rest (col.getD p0 0) [p0]
    if rest ≠ [] ∧ col.getD (col.length - 1) 0 < kw.2 then kw.1 ++ [col.length - 1]
    else kw.1

/-- The loop of `daily_fuel_use` (lines 245-253).  `day` starts at 1;
an observation whose day offset equals `day - 1` records
`initial_weight - new_weight` under the current day (updating
`new_weight`), otherwise the day counter advances and
`new_weight - reading` is recorded under the new day without updating
`new_weight`. -/
def dfuLoop (ts : List ℤ) (col : List ℚ) (began : ℤ) (initW : ℚ) :
    List ℕ → ℕ → ℚ → List (ℕ × ℚ) → Option (List (ℕ × ℚ))
  | [], _, _, daily => some daily
  | i :: r, day, newW, daily =>
    match ts.get? i, col.get? i with
    | some t, some wi =>
      if pyDays (t - began) = (day : ℤ) - 1 then
        dfuLoop ts col began initW r day wi (updateD daily day (initW - wi))
      else
        dfuLoop ts col began initW r (day + 1) newW (updateD daily (day + 1) (newW - wi))
    | _, _ => none

/-- The back-fill of `daily_fuel_use` (lines 256-260): for
`i in range(study_duration - 1)` insert day `i + 2` with value 0 when it
is missing (day 1 is never back-filled). -/
def backfillFuel (daily : List (ℕ × ℚ)) : ℕ → List (ℕ × ℚ)
  | 0 => daily
  | n + 1 =>
    let d := backfillFuel daily n
    if (dlookup d (n + 2)).isSome then d else updateD d (n + 2) 0

/-- `daily_fuel_use` (lines 224-262): seed from the first significant
change, run the day-bucketing loop over all weight-change indices, and
back-fill days 2..study_duration when the bucket count differs from the
study duration in whole days. -/
def daily_fuel_use (ts : List ℤ) (col : List ℚ) (wc : List ℕ) :
    Option (List (ℕ × ℚ)) :=
  match ts.get? 0, ts.get? (ts.length - 1) with
  | some began, some lastT =>
    let n : ℤ := pyDays (lastT - began)
    match wc.get? 0 with
    | none => none
    | some i0 =>
      match col.get? i0 with
      | none => none
      | some initW =>
        match dfuLoop ts col began initW wc 1 0 [] with
        | none => none
        | some daily =>
          some (if (daily.length : ℤ) ≠ n then backfillFuel daily (n - 1).toNat else daily)
  | _, _ => none

/-- The loop of `daily_cooking_time` (lines 344-357).  `day` starts at 0;
when an event's end-day offset differs from `day`, the current accumulator
is closed out under `day + 1` and reset; the event's duration in minutes —
`(end - start).seconds / 60`, i.e. the elapsed time modulo 24 hours
divided by 60 — is then accumulated; on the last event the accumulator is
closed out under a further incremented day. -/
def dctLoop (ts : List ℤ) (began : ℤ) :
    List (ℕ × ℕ) → ℕ → ℚ → List (ℕ × ℚ) → Option (List (ℕ × ℚ))
  | [], _, _, daily => some daily
  | e :: r, day, mins, daily =>
    match ts.get? e.2, ts.get? e.1 with
    | some endT, some startT =>
      let dss := pyDays (endT - began)
      let st := if dss ≠ (day : ℤ) then (day + 1, updateD daily (day + 1) mins, (0 : ℚ))
                else (day, daily, mins)
      let mins2 := st.2.2 + (pySeconds (endT - startT) : ℚ) / 60
      if r = [] then some (updateD st.2.1 (st.1 + 1) mins2)
      else dctLoop ts began r st.1 mins2 st.2.1
    | _, _ => none

/-- The back-fill of `daily_cooking_time` (lines 359-364): for
`i in range(study_duration)` insert day `i + 1` with value 0 when it is
missing. -/
def backfillCook (daily : List (ℕ × ℚ)) : ℕ → List (ℕ × ℚ)
  | 0 => daily
  | n + 1 =>
    let d := backfillCook daily n
    if (dlookup d (n + 1)).isSome then d else updateD d (n + 1) 0

/-- `daily_cooking_time` (lines 324-366): run the day-bucketing loop over
the boundary pairs and back-fill days 1..study_duration when the bucket
count differs from the study duration in whole days. -/
def daily_cooking_time (ts : List ℤ) (events : List (ℕ × ℕ)) :
    Option (List (ℕ × ℚ)) :=
  match ts.get? 0, ts.get? (ts.length - 1) with
  | some began, some lastT =>
    let n : ℤ := pyDays (lastT - began)
    match dctLoop ts began events 0 0 [] with
    | none => none
    | some daily =>
      some (if (daily.length : ℤ) ≠ n then backfillCook daily n.toNat else daily)
  | _, _ => none

/-- The study duration in whole days (`__init__` line 68,
`self.study_duration.days`): last timestamp minus first, floor-divided by
86400. -/
def studyDays (ts : List ℤ) : ℤ := pyDays (ts.getD (ts.length - 1) 0 - ts.getD 0 0)

/-- The per-fuel pipeline of `fuel_usage` (lines 266-271): permissive peak
detection (height 1, distance 1), significant-change thinning, then daily
bucketing. -/
def fuelUsageChannel (ts : List ℤ) (col : List ℚ) (thr : ℚ) :
    Option (List (ℕ × ℚ)) :=
  match find_significant_changes col thr (findPeaks col 1 1) with
  | none => none
  | some wc => daily_fuel_use ts col wc

/-! ### Association-list (Python dict) lemmas -/

lemma dlookup_isSome_iff (d : List (ℕ × ℚ)) (k : ℕ) :
    (dlookup d k).isSome = true ↔ k ∈ dictKeys d := by
  induction d with
  | nil => simp [dlookup, dictKeys]
  | cons p r ih =>
    obtain ⟨k', v⟩ := p
    by_cases h : k' = k
    · subst h; simp [dlookup, dictKeys]
    · simp [dlookup, dictKeys, h, Ne.symm h] at ih ⊢
      simpa [dictKeys] using ih

lemma updateD_of_not_mem (d : List (ℕ × ℚ)) (k : ℕ) (v : ℚ)
    (h : k ∉ dictKeys d) : updateD d k v = d ++ [(k, v)] := by
  have hb : (dlookup d k).isSome = false := by
    rcases hx : (dlookup d k).isSome with _ | _
    · rfl
    · exact absurd ((dlookup_isSome_iff d k).mp hx) h
  simp [updateD, hb]

lemma dictKeys_append_single (d : List (ℕ × ℚ)) (k : ℕ) (v : ℚ) :
    dictKeys (d ++ [(k, v)]) = dictKeys d ++ [k] := by
  simp [dictKeys]

lemma dictKeys_updateD_of_mem (d : List (ℕ × ℚ)) (k : ℕ) (v : ℚ)
    (h : k ∈ dictKeys d) : dictKeys (updateD d k v) = dictKeys d := by
  have hb : (dlookup d k).isSome = true := (dlookup_isSome_iff d k).mpr h
  simp only [updateD, hb, if_true]
  simp only [dictKeys, List.map_map]
  apply List.map_congr_left
  intro p _
  by_cases hp : p.1 = k
  · simp [Function.comp, hp]
  · simp [Function.comp, hp]

lemma mem_dictKeys_updateD (d : List (ℕ × ℚ)) (k : ℕ) (v : ℚ) (x : ℕ)
    (hx : x ∈ dictKeys d) : x ∈ dictKeys (updateD d k v) := by
  by_cases h : k ∈ dictKeys d
  · rw [dictKeys_updateD_of_mem d k v h]; exact hx
  · rw [updateD_of_not_mem d k v h, dictKeys_append_single]
    exact List.mem_append_left _ hx

lemma self_mem_dictKeys_updateD (d : List (ℕ × ℚ)) (k : ℕ) (v : ℚ) :
    k ∈ dictKeys (updateD d k v) := by
  by_cases h : k ∈ dictKeys d
  · rw [dictKeys_updateD_of_mem d k v h]; exact h
  · rw [updateD_of_not_mem d k v h, dictKeys_append_single]
    exact List.mem_append_right _ (List.mem_singleton.mpr rfl)

lemma dictVals_updateD (d : List (ℕ × ℚ)) (k : ℕ) (v w : ℚ)
    (hw : w ∈ dictVals (updateD d k v)) : w ∈ dictVals d ∨ w = v := by
  by_cases h : (dlookup d k).isSome = true
  · simp only [updateD, h, if_true, dictVals, List.map_map, List.mem_map] at hw
    obtain ⟨p, hp, hpw⟩ := hw
    by_cases hpk : p.1 = k
    · right
      simp only [Function.comp, hpk, if_pos] at hpw
      exact hpw.symm
    · left
      simp only [Function.comp, hpk, if_neg, ite_false] at hpw
      exact List.mem_map.mpr ⟨p, hp, by simpa using hpw⟩
  · have hb : (dlookup d k).isSome = false := by
      rcases hx : (dlookup d k).isSome with _ | _
      · rfl
      · exact absurd hx h
    simp only [updateD, hb, Bool.false_eq_true, if_false, dictVals, List.map_append,
      List.mem_append, List.map_cons, List.map_nil, List.mem_singleton] at hw
    rcases hw with hw | hw
    · exact Or.inl hw
    · exact Or.inr hw

lemma length_dictKeys (d : List (ℕ × ℚ)) : (dictKeys d).length = d.length := by
  simp [dictKeys]

lemma sumVals_append_single (d : List (ℕ × ℚ)) (k : ℕ) (v : ℚ) :
    sumVals (d ++ [(k, v)]) = sumVals d + v := by
  simp [sumVals]

lemma get?_eq_some_getD (l : List ℚ) (i : ℕ) (h : i < l.length) :
    l.get? i = some (l.getD i 0) := by
  rw [List.get?_eq_get h, List.getD_eq_get? ]
  rw [List.get?_eq_get h]
  rfl

/-! ### Back-fill lemmas -/

lemma mem_dictKeys_backfillCook (daily : List (ℕ × ℚ)) (n : ℕ) (x : ℕ)
    (hx : x ∈ dictKeys daily) : x ∈ dictKeys (backfillCook daily n) := by
  induction n with
  | zero => exact hx
  | succ m ih =>
    simp only [backfillCook]
    by_cases h : (dlookup (backfillCook daily m) (m + 1)).isSome = true
    · simp only [h, if_true]; exact ih
    · simp [h]; exact mem_dictKeys_updateD _ _ _ _ ih

lemma backfillCook_mem (daily : List (ℕ × ℚ)) (n d : ℕ)
    (h1 : 1 ≤ d) (h2 : d ≤ n) : d ∈ dictKeys (backfillCook daily n) := by
  induction n with
  | zero => omega
  | succ m ih =>
    simp only [backfillCook]
    by_cases hd : d ≤ m
    · by_cases h : (dlookup (backfillCook daily m) (m + 1)).isSome = true
      · simp only [h, if_true]; exact ih hd
      · simp [h]; exact mem_dictKeys_updateD _ _ _ _ (ih hd)
    · have hdm : d = m + 1 := by omega
      by_cases h : (dlookup (backfillCook daily m) (m + 1)).isSome = true
      · simp only [h, if_true]
        rw [hdm]
        exact (dlookup_isSome_iff _ _).mp h
      · simp [h]
        rw [hdm]
        exact self_mem_dictKeys_updateD _ _ _

lemma dictVals_backfillCook (daily : List (ℕ × ℚ)) (n : ℕ) (w : ℚ)
    (hw : w ∈ dictVals (backfillCook daily n)) : w ∈ dictVals daily ∨ w = 0 := by
  induction n with
  | zero => exact Or.inl hw
  | succ m ih =>
    simp only [backfillCook] at hw
    by_cases h : (dlookup (backfillCook daily m) (m + 1)).isSome = true
    · simp only [h, if_true] at hw; exact ih hw
    · simp [h] at hw
      rcases dictVals_updateD _ _ _ _ hw with hw' | hw'
      · exact ih hw'
      · exact Or.inr hw'

lemma sumVals_backfillCook (daily : List (ℕ × ℚ)) (n : ℕ) :
    sumVals (backfillCook daily n) = sumVals daily := by
  induction n with
  | zero => rfl
  | succ m ih =>
    simp only [backfillCook]
    by_cases h : (dlookup (backfillCook daily m) (m + 1)).isSome = true
    · simp only [h, if_true]; exact ih
    · simp [h]
      have hfree : (m + 1) ∉ dictKeys (backfillCook daily m) := by
        intro hmem
        exact absurd ((dlookup_isSome_iff _ _).mpr hmem) (by simp [h])
      rw [updateD_of_not_mem _ _ _ hfree, sumVals_append_single, ih, add_zero]

lemma mem_dictKeys_backfillFuel (daily : List (ℕ × ℚ)) (n : ℕ) (x : ℕ)
    (hx : x ∈ dictKeys daily) : x ∈ dictKeys (backfillFuel daily n) := by
  induction n with
  | zero => exact hx
  | succ m ih =>
    simp only [backfillFuel]
    by_cases h : (dlookup (backfillFuel daily m) (m + 2)).isSome = true
    · simp only [h, if_true]; exact ih
    · simp [h]; exact mem_dictKeys_updateD _ _ _ _ ih

lemma backfillFuel_mem (daily : List (ℕ × ℚ)) (n d : ℕ)
    (h1 : 2 ≤ d) (h2 : d ≤ n + 1) : d ∈ dictKeys (backfillFuel daily n) := by
  induction n with
  | zero => omega
  | succ m ih =>
    simp only [backfillFuel]
    by_cases hd : d ≤ m + 1
    · by_cases h : (dlookup (backfillFuel daily m) (m + 2)).isSome = true
      · simp only [h, if_true]; exact ih hd
      · simp [h]; exact mem_dictKeys_updateD _ _ _ _ (ih hd)
    · have hdm : d = m + 2 := by omega
      by_cases h : (dlookup (backfillFuel daily m) (m + 2)).isSome = true
      · simp only [h, if_true]
        rw [hdm]
        exact (dlookup_isSome_iff _ _).mp h
      · simp [h]
        rw [hdm]
        exact self_mem_dictKeys_updateD _ _ _

/-! ### Event Boundary Resolver lemmas (`cooking_durations`) -/

lemma scanZeroIdx_spec : ∀ (l : List ℚ) (j : ℕ), scanZeroIdx l = some j →
    j < l.length ∧ l.get? j = some 0 := by
  intro l
  induction l with
  | nil => intro j h; simp [scanZeroIdx] at h
  | cons v r ih =>
    intro j h
    by_cases hv : v = 0
    · subst hv
      simp [scanZeroIdx] at h
      subst h
      exact ⟨by simp, rfl⟩
    · simp only [scanZeroIdx, hv, ite_false, Option.map_eq_some'] at h
      obtain ⟨j', hj', hjj⟩ := h
      obtain ⟨hlt, hget⟩ := ih j' hj'
      subst hjj
      exact ⟨by simpa using Nat.succ_lt_succ hlt, by simpa using hget⟩

lemma findStart_spec (col : List ℚ) (i s : ℕ) (hi : i ≤ col.length)
    (h : findStart col i = some s) :
    1 ≤ s ∧ s ≤ i ∧ col.get? (s - 1) = some 0 := by
  simp only [findStart, Option.map_eq_some'] at h
  obtain ⟨j, hj, hs⟩ := h
  obtain ⟨hlt, hget⟩ := scanZeroIdx_spec _ _ hj
  have hlen : (col.take i).length = i := by
    rw [List.length_take]; omega
  have hlt' : j < i := by
    rw [List.length_reverse, hlen] at hlt
    exact hlt
  have hrev : (col.take i).reverse.get? j = (col.take i).get? ((col.take i).length - 1 - j) := by
    apply List.get?_reverse
    rwa [hlen]
  rw [hrev, hlen] at hget
  have htake : (col.take i).get? (i - 1 - j) = col.get? (i - 1 - j) :=
    List.get?_take (by omega)
  rw [htake] at hget
  refine ⟨by omega, by omega, ?_⟩
  have : s - 1 = i - 1 - j := by omega
  rw [this]
  exact hget

lemma findEnd_spec (col : List ℚ) (i e : ℕ)
    (h : findEnd col i = some e) :
    i ≤ e ∧ e < col.length ∧ col.get? e = some 0 := by
  simp only [findEnd, Option.map_eq_some'] at h
  obtain ⟨k, hk, he⟩ := h
  obtain ⟨hlt, hget⟩ := scanZeroIdx_spec _ _ hk
  rw [List.get?_drop] at hget
  rw [List.length_drop] at hlt
  subst he
  exact ⟨by omega, by omega, hget⟩

lemma cdGo_spec (col : List ℚ) :
    ∀ (peaks : List ℕ) (sp ep : Option ℕ) (acc out : List (ℕ × ℕ)),
      (∀ i ∈ peaks, (findStart col i).isSome = true ∧ (findEnd col i).isSome = true) →
      cdGo col sp ep peaks acc = some out →
      out = acc ++ peaks.map (fun i => ((findStart col i).getD 0, (findEnd col i).getD 0)) := by
  intro peaks
  induction peaks with
  | nil =>
    intro sp ep acc out _ h
    simp only [cdGo] at h
    simp [← Option.some_inj.mp h]
  | cons i rest ih =>
    intro sp ep acc out hall h
    obtain ⟨hs, he⟩ := hall i (List.mem_cons_self i rest)
    obtain ⟨s, hs'⟩ := Option.isSome_iff_exists.mp hs
    obtain ⟨e, he'⟩ := Option.isSome_iff_exists.mp he
    simp only [cdGo, hs', he'] at h
    have hout := ih (some s) (some e) (acc ++ [(s, e)]) out
      (fun j hj => hall j (List.mem_cons_of_mem _ hj)) h
    rw [hout]
    simp [List.map_cons, hs', he', List.append_assoc]

/-! ### Significant-Change Filter lemmas (`find_significant_changes`) -/

lemma fscGo_eq_keepFold (col : List ℚ) (thr : ℚ) (plast : ℕ) (hcol : col ≠ []) :
    ∀ (rest : List ℕ) (w : ℚ) (acc : List ℕ),
      (∀ i ∈ rest, i < col.length) → List.Pairwise (· < ·) rest →
      rest.getLast? = some plast →
      fscGo col thr plast rest w acc =
        some (if col.getD (col.length - 1) 0 < (keepFold col thr rest w acc).2
              then (keepFold col thr rest w acc).1 ++ [col.length - 1]
              else (keepFold col thr rest w acc).1) := by
  intro rest
  induction rest with
  | nil => intro w acc _ _ hlast; simp at hlast
  | cons i r ih =>
    intro w acc hin hpw hlast
    have hi : i < col.length := hin i (List.mem_cons_self i r)
    have hgi : col.get? i = some (col.getD i 0) := get?_eq_some_getD col i hi
    have hglast : col.get? (col.length - 1) = some (col.getD (col.length - 1) 0) :=
      get?_eq_some_getD col (col.length - 1)
        (by cases col with
            | nil => exact absurd rfl hcol
            | cons a l => simp)
    cases r with
    | nil =>
      have hip : i = plast := by simpa using hlast
      subst hip
      simp only [fscGo, keepFold, hgi, hglast]
      split_ifs <;> first | rfl | linarith | simp_all
    | cons j r' =>
      have hlast' : (j :: r').getLast? = some plast := by
        simpa [List.getLast?_cons_cons] using hlast
      have hplmem : plast ∈ j :: r' := by
        have h1 : (j :: r').getLast? = some ((j :: r').getLast (by simp)) :=
          List.getLast?_eq_getLast _ (by simp)
        have h2 : (j :: r').getLast (by simp) = plast := by
          rw [h1] at hlast'
          exact Option.some_inj.mp hlast'
        rw [← h2]
        exact List.getLast_mem (by simp)
      have hine : i ≠ plast := by
        have : i < plast := (List.pairwise_cons.mp hpw).1 plast hplmem
        omega
      have hrec1 := ih w acc (fun x hx => hin x (List.mem_cons_of_mem _ hx))
        (List.pairwise_cons.mp hpw).2 hlast'
      have hrec2 := ih (col.getD i 0) (acc ++ [i])
        (fun x hx => hin x (List.mem_cons_of_mem _ hx))
        (List.pairwise_cons.mp hpw).2 hlast'
      by_cases hk : pyAbs (col.getD i 0 - w) < thr
      · have hnk := not_le.mpr hk
        simp only [fscGo, keepFold, hgi, if_neg hine, if_pos hk, if_neg hnk]
        exact hrec1
      · have hnk := not_lt.mp hk
        simp only [fscGo, keepFold, hgi, if_neg hk, if_pos hnk, if_neg hine]
        exact hrec2

lemma fsc_eq_spec (col : List ℚ) (thr : ℚ) (peaks : List ℕ) (hne : peaks ≠ [])
    (hcol : col ≠ []) (hin : ∀ i ∈ peaks, i < col.length)
    (hpw : List.Pairwise (· < ·) peaks) :
    find_significant_changes col thr peaks = some (sigChangesSpec col thr peaks) := by
  cases peaks with
  | nil => exact absurd rfl hne
  | cons p0 rest =>
    have hp0 : p0 < col.length := hin p0 (List.mem_cons_self p0 rest)
    have hg0 : col.get? p0 = some (col.getD p0 0) := get?_eq_some_getD col p0 hp0
    cases rest with
    | nil =>
      simp only [find_significant_changes, hg0, fscGo, sigChangesSpec, keepFold]
      simp
    | cons j r' =>
      have hlast? : (j :: r').getLast? = some ((p0 :: j :: r').getLastD 0) := by
        rw [List.getLast?_eq_getLast (j :: r') (by simp)]
        rw [List.getLastD_cons]
        rw [List.getLastD_eq_getLast?]
        rw [List.getLast?_eq_getLast (j :: r') (by simp)]
        rfl
      have hrw := fscGo_eq_keepFold col thr ((p0 :: j :: r').getLastD 0) hcol
        (j :: r') (col.getD p0 0) [p0]
        (fun x hx => hin x (List.mem_cons_of_mem _ hx))
        (List.pairwise_cons.mp hpw).2 hlast?
      simp only [find_significant_changes, hg0]
      rw [hrw]
      simp only [sigChangesSpec]
      have hj : ((j :: r' : List ℕ) ≠ [] : Prop) := by simp
      simp [hj]

lemma keepFold_exists_suffix (col : List ℚ) (thr : ℚ) :
    ∀ (l : List ℕ) (w : ℚ) (acc : List ℕ),
      ∃ t, (keepFold col thr l w acc).1 = acc ++ t ∧ t.length ≤ l.length := by
  intro l
  induction l with
  | nil => intro w acc; exact ⟨[], by simp [keepFold], by simp⟩
  | cons i r ih =>
    intro w acc
    by_cases hk : thr ≤ pyAbs (col.getD i 0 - w)
    · obtain ⟨t, ht, hlen⟩ := ih (col.getD i 0) (acc ++ [i])
      refine ⟨[i] ++ t, ?_, ?_⟩
      · simp only [keepFold, if_pos hk]
        rw [ht]
        simp
      · simpa using Nat.succ_le_succ hlen
    · obtain ⟨t, ht, hlen⟩ := ih w acc
      refine ⟨t, ?_, ?_⟩
      · simp only [keepFold, if_neg hk]
        exact ht
      · simp
        omega

/-! ### Daily Aggregator lemmas (`daily_cooking_time`, `daily_fuel_use`) -/

lemma range'_one_concat (n : ℕ) :
    List.range' 1 (n + 1) = List.range' 1 n ++ [n + 1] := by
  rw [List.range'_concat]
  simp [Nat.one_mul, Nat.add_comm]

lemma dictKeys_updateD_fresh_range (daily : List (ℕ × ℚ)) (day : ℕ) (v : ℚ)
    (h : dictKeys daily = List.range' 1 day) :
    dictKeys (updateD daily (day + 1) v) = List.range' 1 (day + 1) := by
  have hnot : (day + 1) ∉ dictKeys daily := by
    rw [h]
    simp only [List.mem_range'_1, not_and, not_lt]
    omega
  rw [updateD_of_not_mem _ _ _ hnot, dictKeys_append_single, h, range'_one_concat]

lemma dictVals_updateD_nonneg (daily : List (ℕ × ℚ)) (k : ℕ) (v : ℚ)
    (hvals : ∀ x ∈ dictVals daily, 0 ≤ x) (hv : 0 ≤ v) :
    ∀ x ∈ dictVals (updateD daily k v), 0 ≤ x := by
  intro x hx
  rcases dictVals_updateD daily k v x hx with h | h
  · exact hvals x h
  · rw [h]; exact hv

lemma pySeconds_term_nonneg (t : ℤ) : 0 ≤ ((pySeconds t : ℤ) : ℚ) / 60 := by
  apply div_nonneg _ (by norm_num)
  have h : (0 : ℤ) ≤ pySeconds t := by
    simp only [pySeconds]; omega
  exact_mod_cast h

lemma dctLoop_spec (ts : List ℤ) (began : ℤ) :
    ∀ (evs : List (ℕ × ℕ)) (day : ℕ) (mins : ℚ) (daily out : List (ℕ × ℚ)),
      dictKeys daily = List.range' 1 day →
      (∀ v ∈ dictVals daily, 0 ≤ v) → 0 ≤ mins →
      dctLoop ts began evs day mins daily = some out →
      ∃ k, dictKeys out = List.range' 1 k ∧ (∀ v ∈ dictVals out, 0 ≤ v) := by
  intro evs
  induction evs with
  | nil =>
    intro day mins daily out hk hv _ h
    simp only [dctLoop] at h
    obtain rfl : daily = out := Option.some_inj.mp h
    exact ⟨day, hk, hv⟩
  | cons e r ih =>
    intro day mins daily out hk hv hm h
    simp only [dctLoop] at h
    rcases hE : ts.get? e.2 with _ | endT
    · rw [hE] at h; simp at h
    rcases hS : ts.get? e.1 with _ | startT
    · rw [hE, hS] at h; simp at h
    rw [hE, hS] at h
    simp only at h
    have hterm : 0 ≤ ((pySeconds (endT - startT) : ℤ) : ℚ) / 60 :=
      pySeconds_term_nonneg (endT - startT)
    by_cases hd : pyDays (endT - began) ≠ (day : ℤ)
    · rw [if_pos hd] at h
      simp only at h
      have hk1 : dictKeys (updateD daily (day + 1) mins) = List.range' 1 (day + 1) :=
        dictKeys_updateD_fresh_range daily day mins hk
      have hv1 : ∀ x ∈ dictVals (updateD daily (day + 1) mins), 0 ≤ x :=
        dictVals_updateD_nonneg daily (day + 1) mins hv hm
      by_cases hr : r = []
      · rw [if_pos hr] at h
        obtain rfl := Option.some_inj.mp h
        refine ⟨day + 1 + 1, ?_, ?_⟩
        · exact dictKeys_updateD_fresh_range _ (day + 1) _ hk1
        · exact dictVals_updateD_nonneg _ (day + 1 + 1) _ hv1 (by positivity)
      · rw [if_neg hr] at h
        exact ih (day + 1) _ (updateD daily (day + 1) mins) out hk1 hv1 (by positivity) h
    · rw [if_neg hd] at h
      simp only at h
      by_cases hr : r = []
      · rw [if_pos hr] at h
        obtain rfl := Option.some_inj.mp h
        refine ⟨day + 1, ?_, ?_⟩
        · exact dictKeys_updateD_fresh_range daily day _ hk
        · exact dictVals_updateD_nonneg daily (day + 1) _ hv (by positivity)
      · rw [if_neg hr] at h
        exact ih day _ daily out hk hv (by positivity) h

lemma daily_cooking_time_spec (ts : List ℤ) (evs : List (ℕ × ℕ)) (out : List (ℕ × ℚ))
    (h : daily_cooking_time ts evs = some out) :
    (∀ d : ℕ, 1 ≤ d → (d : ℤ) ≤ studyDays ts → d ∈ dictKeys out) ∧
    (∀ v ∈ dictVals out, 0 ≤ v) := by
  unfold daily_cooking_time at h
  rcases h0 : ts.get? 0 with _ | began
  · rw [h0] at h; simp at h
  rcases h1 : ts.get? (ts.length - 1) with _ | lastT
  · rw [h0, h1] at h; simp at h
  rw [h0, h1] at h
  simp only at h
  rcases hL : dctLoop ts began evs 0 0 [] with _ | daily
  · rw [hL] at h; simp at h
  rw [hL] at h
  simp only [Option.some_inj] at h
  obtain ⟨k, hkeys, hvals⟩ := dctLoop_spec ts began evs 0 0 [] daily
    (by simp [dictKeys]) (by simp [dictVals]) le_rfl hL
  have hb : ts.getD 0 0 = began := by
    rw [List.getD_eq_get?, h0]; rfl
  have hl : ts.getD (ts.length - 1) 0 = lastT := by
    rw [List.getD_eq_get?, h1]; rfl
  have hsd : studyDays ts = pyDays (lastT - began) := by
    rw [studyDays, hb, hl]
  by_cases hlen : (daily.length : ℤ) ≠ pyDays (lastT - began)
  · rw [if_pos hlen] at h
    subst h
    constructor
    · intro d hd1 hd2
      rw [hsd] at hd2
      exact backfillCook_mem daily _ d hd1 (by omega)
    · intro v hv
      rcases dictVals_backfillCook daily _ v hv with hv' | hv'
      · exact hvals v hv'
      · rw [hv']
  · rw [if_neg hlen] at h
    subst h
    push_neg at hlen
    have hdk : daily.length = k := by
      have := congrArg List.length hkeys
      rwa [length_dictKeys, List.length_range'] at this
    constructor
    · intro d hd1 hd2
      rw [hsd, ← hlen] at hd2
      rw [hkeys, List.mem_range'_1]
      omega
    · exact hvals

/-- The invariant maintained by the fuel-usage day-bucketing loop: either
nothing has been recorded yet (and the day counter is 1), or the recorded
keys are the consecutive days `f..day` for a first key `f ∈ {1, 2}`. -/
def fuelInv (daily : List (ℕ × ℚ)) (day : ℕ) : Prop :=
  (daily = [] ∧ day = 1) ∨
  ∃ f, (f = 1 ∨ f = 2) ∧ f ≤ day ∧ dictKeys daily = List.range' f (day + 1 - f)

lemma dictKeys_updateD_fresh_range' (daily : List (ℕ × ℚ)) (f day : ℕ) (v : ℚ)
    (hf : f ≤ day) (h : dictKeys daily = List.range' f (day + 1 - f)) :
    dictKeys (updateD daily (day + 1) v) = List.range' f (day + 2 - f) := by
  have hnot : (day + 1) ∉ dictKeys daily := by
    rw [h]
    simp only [List.mem_range'_1, not_and, not_lt]
    omega
  rw [updateD_of_not_mem _ _ _ hnot, dictKeys_append_single, h]
  have h2 : day + 2 - f = (day + 1 - f) + 1 := by omega
  rw [h2, List.range'_concat]
  have h3 : f + 1 * (day + 1 - f) = day + 1 := by omega
  rw [h3]

lemma dfuLoop_spec (ts : List ℤ) (col : List ℚ) (began : ℤ) (initW : ℚ) :
    ∀ (wc : List ℕ) (day : ℕ) (newW : ℚ) (daily out : List (ℕ × ℚ)),
      fuelInv daily day →
      dfuLoop ts col began initW wc day newW daily = some out →
      out = [] ∨ ∃ f, (f = 1 ∨ f = 2) ∧ dictKeys out = List.range' f out.length := by
  intro wc
  induction wc with
  | nil =>
    intro day newW daily out hinv h
    simp only [dfuLoop] at h
    obtain rfl : daily = out := Option.some_inj.mp h
    rcases hinv with ⟨hd, _⟩ | ⟨f, hf, hfd, hkeys⟩
    · exact Or.inl hd
    · refine Or.inr ⟨f, hf, ?_⟩
      have hlen : daily.length = day + 1 - f := by
        have := congrArg List.length hkeys
        rwa [length_dictKeys, List.length_range'] at this
      rw [hlen]
      exact hkeys
  | cons i r ih =>
    intro day newW daily out hinv h
    simp only [dfuLoop] at h
    rcases hT : ts.get? i with _ | t
    · rw [hT] at h; simp at h
    rcases hW : col.get? i with _ | wi
    · rw [hT, hW] at h; simp at h
    rw [hT, hW] at h
    simp only at h
    by_cases hd : pyDays (t - began) = (day : ℤ) - 1
    · rw [if_pos hd] at h
      refine ih day wi _ out ?_ h
      rcases hinv with ⟨hdy, hday⟩ | ⟨f, hf, hfd, hkeys⟩
      · subst hdy; subst hday
        refine Or.inr ⟨1, Or.inl rfl, le_rfl, ?_⟩
        rw [updateD_of_not_mem _ _ _ (by simp [dictKeys]), dictKeys_append_single]
        simp [dictKeys]
      · refine Or.inr ⟨f, hf, hfd, ?_⟩
        have hmem : day ∈ dictKeys daily := by
          rw [hkeys, List.mem_range'_1]
          omega
        rw [dictKeys_updateD_of_mem _ _ _ hmem]
        exact hkeys
    · rw [if_neg hd] at h
      refine ih (day + 1) newW _ out ?_ h
      rcases hinv with ⟨hdy, hday⟩ | ⟨f, hf, hfd, hkeys⟩
      · subst hdy; subst hday
        refine Or.inr ⟨2, Or.inr rfl, by omega, ?_⟩
        rw [updateD_of_not_mem _ _ _ (by simp [dictKeys]), dictKeys_append_single]
        simp [dictKeys]
      · refine Or.inr ⟨f, hf, by omega, ?_⟩
        have h2 : day + 1 + 1 - f = day + 2 - f := by omega
        rw [h2]
        exact dictKeys_updateD_fresh_range' daily f day _ hfd hkeys

lemma daily_fuel_use_spec (ts : List ℤ) (col : List ℚ) (wc : List ℕ) (out : List (ℕ × ℚ))
    (h : daily_fuel_use ts col wc = some out) :
    ∀ d : ℕ, 2 ≤ d → (d : ℤ) ≤ studyDays ts → d ∈ dictKeys out := by
  unfold daily_fuel_use at h
  rcases h0 : ts.get? 0 with _ | began
  · rw [h0] at h; simp at h
  rcases h1 : ts.get? (ts.length - 1) with _ | lastT
  · rw [h0, h1] at h; simp at h
  rw [h0, h1] at h
  simp only at h
  rcases h2 : wc.get? 0 with _ | i0
  · rw [h2] at h; simp at h
  rw [h2] at h
  simp only at h
  rcases h3 : col.get? i0 with _ | initW
  · rw [h3] at h; simp at h
  rw [h3] at h
  simp only at h
  rcases hL : dfuLoop ts col began initW wc 1 0 [] with _ | daily
  · rw [hL] at h; simp at h
  rw [hL] at h
  simp only [Option.some_inj] at h
  have hb : ts.getD 0 0 = began := by
    rw [List.getD_eq_get?, h0]; rfl
  have hl : ts.getD (ts.length - 1) 0 = lastT := by
    rw [List.getD_eq_get?, h1]; rfl
  have hsd : studyDays ts = pyDays (lastT - began) := by
    rw [studyDays, hb, hl]
  have hinv0 : fuelInv [] 1 := Or.inl ⟨rfl, rfl⟩
  have hspec := dfuLoop_spec ts col began initW wc 1 0 [] daily hinv0 hL
  by_cases hlen : (daily.length : ℤ) ≠ pyDays (lastT - began)
  · rw [if_pos hlen] at h
    subst h
    intro d hd1 hd2
    rw [hsd] at hd2
    apply backfillFuel_mem daily _ d hd1
    omega
  · rw [if_neg hlen] at h
    subst h
    push_neg at hlen
    intro d hd1 hd2
    rw [hsd, ← hlen] at hd2
    rcases hspec with hnil | ⟨f, hf, hkeys⟩
    · subst hnil
      simp at hd2
      omega
    · rw [hkeys, List.mem_range'_1]
      have : (d : ℤ) ≤ (daily.length : ℤ) := hd2
      have hdl : d ≤ daily.length := by exact_mod_cast this
      omega

/-! ### Subject-validation lemmas (`check_stove_type`, `check_fuel_type`) -/

lemma cstLoop_ok (stoves : List String) :
    ∀ (l acc : List String), (∀ x ∈ l, x ∈ stoves) →
      cstLoop stoves l acc = .ok (acc ++ l) := by
  intro l
  induction l with
  | nil => intro acc _; simp [cstLoop]
  | cons s r ih =>
    intro acc hall
    have hs : s ∈ stoves := hall s (List.mem_cons_self s r)
    simp only [cstLoop, if_pos hs]
    rw [ih (acc ++ [s]) (fun x hx => hall x (List.mem_cons_of_mem _ hx))]
    simp

lemma cstLoop_err (stoves : List String) :
    ∀ (l acc : List String), (∃ x ∈ l, x ∉ stoves) →
      ∃ e, cstLoop stoves l acc = .error e := by
  intro l
  induction l with
  | nil => intro acc h; simp at h
  | cons s r ih =>
    intro acc hex
    by_cases hs : s ∈ stoves
    · obtain ⟨x, hx, hxs⟩ := hex
      have hxr : x ∈ r := by
        rcases List.mem_cons.mp hx with hxx | hxx
        · exact absurd (hxx ▸ hs) hxs
        · exact hxx
      simp only [cstLoop, if_pos hs]
      exact ih (acc ++ [s]) ⟨x, hxr, hxs⟩
    · exact ⟨s ++ " not found in data set.", by simp [cstLoop, hs]⟩

lemma cftLoop_eq (fuels : List String) :
    ∀ (l acc : List String),
      cftLoop fuels l acc = acc ++ l.filter (fun x => decide (x ∈ fuels)) := by
  intro l
  induction l with
  | nil => intro acc; simp [cftLoop]
  | cons f r ih =>
    intro acc
    by_cases hf : f ∈ fuels
    · simp only [cftLoop, if_pos hf]
      rw [ih (acc ++ [f])]
      simp [hf]
    · simp only [cftLoop, if_neg hf]
      rw [ih acc]
      simp [hf]

lemma check_stove_type_err_iff (stoves xs : List String) :
    isErr (check_stove_type stoves (.list xs)) = true ↔
      xs = [] ∨ ∃ x ∈ xs, x ∉ stoves := by
  have hne : (SubjArg.list xs = SubjArg.str "All") = False := by simp
  by_cases hall : ∀ x ∈ xs, x ∈ stoves
  · rw [check_stove_type, if_neg (by simp)]
    have hok := cstLoop_ok stoves xs [] hall
    simp only [subjElems, hok, List.nil_append]
    by_cases hxs : xs = []
    · simp [hxs, isErr]
    · simp only [if_neg hxs, isErr]
      constructor
      · intro h; exact absurd h (by simp)
      · rintro (h | ⟨x, hx, hxst⟩)
        · exact absurd h hxs
        · exact absurd (hall x hx) hxst
  · rw [check_stove_type, if_neg (by simp)]
    push_neg at hall
    obtain ⟨e, he⟩ := cstLoop_err stoves xs [] (by
      obtain ⟨x, hx, hxs⟩ := hall
      exact ⟨x, hx, hxs⟩)
    simp only [subjElems, he, isErr]
    constructor
    · intro _
      right
      obtain ⟨x, hx, hxs⟩ := hall
      exact ⟨x, hx, hxs⟩
    · intro _; trivial

lemma check_fuel_type_err_iff (fuels xs : List String) :
    isErr (check_fuel_type fuels (.list xs)) = true ↔
      xs.filter (fun x => decide (x ∈ fuels)) = [] := by
  rw [check_fuel_type, if_neg (by simp)]
  simp only [subjElems, cftLoop_eq fuels xs [], List.nil_append]
  rcases hf : xs.filter (fun x => decide (x ∈ fuels)) with _ | ⟨y, ys⟩
  · simp [isErr]
  · simp [isErr]

/-! ### Peak Detector lemmas (`findPeaks`) -/

lemma keepByDistance_zero : ∀ (l kept : List ℕ), keepByDistance 0 l kept = kept ++ l := by
  intro l
  induction l with
  | nil => intro kept; simp [keepByDistance]
  | cons i r ih =>
    intro kept
    have hall : kept.all (fun j => decide (0 ≤ natDist i j)) = true := by
      simp [List.all_eq_true]
    simp only [keepByDistance, hall, if_pos]
    rw [ih (kept ++ [i])]
    simp

lemma strictLocalMaxima_pairwise (col : List ℚ) :
    List.Pairwise (· < ·) (strictLocalMaxima col) :=
  List.Pairwise.sublist (List.filter_sublist _) (List.pairwise_lt_range _)

lemma strictLocalMaxima_sorted (col : List ℚ) :
    List.Sorted (· ≤ ·) (strictLocalMaxima col) :=
  (strictLocalMaxima_pairwise col).imp le_of_lt

lemma getD_nonneg (col : List ℚ) (hnn : ∀ v ∈ col, 0 ≤ v) (i : ℕ) :
    0 ≤ col.getD i 0 := by
  rcases hx : col.get? i with _ | v
  · rw [List.getD_eq_get?, hx]
    exact le_refl 0
  · rw [List.getD_eq_get?, hx]
    exact hnn v (List.get?_mem hx)

lemma findPeaks_zero (col : List ℚ) (hnn : ∀ v ∈ col, 0 ≤ v) :
    findPeaks col 0 0 = strictLocalMaxima col := by
  unfold findPeaks
  have hfil : (strictLocalMaxima col).filter (fun i => decide ((0 : ℚ) ≤ col.getD i 0)) =
      strictLocalMaxima col := by
    apply List.filter_eq_self.mpr
    intro i _
    simp only [decide_eq_true_eq]
    exact getD_nonneg col hnn i
  simp only [hfil, keepByDistance_zero, List.nil_append]
  apply List.eq_of_perm_of_sorted
    ((List.perm_insertionSort _ _).trans (List.perm_insertionSort _ _))
    (List.sorted_insertionSort _ _)
    (strictLocalMaxima_sorted col)

/-! ### Claim theorems -/

/-- C1 (amended).  For every cooking event resolved by `cooking_durations`
from a peak whose channel has a zero reading on both sides (so that both
boundary scans succeed), the boundaries satisfy `start ≤ peak ≤ end` and
`reading[end] = 0`; however `start` is the sample *after* the nearest
preceding zero: `start ≥ 1` and `reading[start - 1] = 0` (the code sets
`start_time = i - j` while the zero found lies at `i - 1 - j`), so the
reading at `start` itself need not be 0. -/
theorem C1_boundary_containment (col : List ℚ) (peaks : List ℕ) (out : List (ℕ × ℕ))
    (k i : ℕ)
    (hall : ∀ j ∈ peaks, (findStart col j).isSome = true ∧ (findEnd col j).isSome = true)
    (h : cookingDurations col peaks = some out) (hk : peaks.get? k = some i) :
    ∃ s e, out.get? k = some (s, e) ∧ findStart col i = some s ∧ findEnd col i = some e ∧
      s ≤ i ∧ i ≤ e ∧ 1 ≤ s ∧ col.get? (s - 1) = some 0 ∧ col.get? e = some 0 := by
  unfold cookingDurations at h
  have hout := cdGo_spec col peaks none none [] out hall h
  simp only [List.nil_append] at hout
  subst hout
  have hmem : i ∈ peaks := List.get?_mem hk
  obtain ⟨s, hs⟩ := Option.isSome_iff_exists.mp (hall i hmem).1
  obtain ⟨e, he⟩ := Option.isSome_iff_exists.mp (hall i hmem).2
  obtain ⟨hie, helen, hgete⟩ := findEnd_spec col i e he
  have hile : i ≤ col.length := le_of_lt (lt_of_le_of_lt hie helen)
  obtain ⟨hs1, hsi, hgets⟩ := findStart_spec col i s hile hs
  refine ⟨s, e, ?_, hs, he, hsi, hie, hs1, hgets, hgete⟩
  rw [List.get?_map, hk]
  simp [hs, he]

/-- Witness for C1 at the concrete channel `[0, 5, 10, 5, 0]` whose only
detected peak is index 2, resolved to the boundary pair `(1, 4)`. -/
theorem C1_boundary_containment_witness :
    (∀ j ∈ ([2] : List ℕ),
      (findStart [0, 5, 10, 5, 0] j).isSome = true ∧
      (findEnd [0, 5, 10, 5, 0] j).isSome = true) ∧
    ∃ s e, ([(1, 4)] : List (ℕ × ℕ)).get? 0 = some (s, e) ∧
      findStart [0, 5, 10, 5, 0] 2 = some s ∧ findEnd [0, 5, 10, 5, 0] 2 = some e ∧
      s ≤ 2 ∧ 2 ≤ e ∧ 1 ≤ s ∧
      ([0, 5, 10, 5, 0] : List ℚ).get? (s - 1) = some 0 ∧
      ([0, 5, 10, 5, 0] : List ℚ).get? e = some 0 :=
  ⟨by decide,
    C1_boundary_containment [0, 5, 10, 5, 0] [2] [(1, 4)] 0 2 (by decide) (by decide) (by decide)⟩

/-- Counterexample refuting C1 as stated: on the stove channel
`[0, 5, 10, 5, 0]` (zeros on both sides of the detected peak 2), the
resolved event is `(start, end) = (1, 4)` and the reading at the start
index is 5, not 0. -/
theorem C1_boundary_counterexample :
    findPeaks [0, 5, 10, 5, 0] 5 1 = [2] ∧
    cookingDurations [0, 5, 10, 5, 0] (findPeaks [0, 5, 10, 5, 0] 5 1) = some [(1, 4)] ∧
    ([0, 5, 10, 5, 0] : List ℚ).get? 0 = some 0 ∧
    ([0, 5, 10, 5, 0] : List ℚ).get? 4 = some 0 ∧
    ([0, 5, 10, 5, 0] : List ℚ).get? 1 = some 5 ∧
    (5 : ℚ) ≠ 0 :=
  ⟨by decide, by decide, rfl, rfl, rfl, by norm_num⟩

/-- C2 (amended).  Every day-bucket series produced by
`daily_cooking_time` has a key for every day in `{1, …, study_duration}`
and only nonnegative values, and every series produced by
`daily_fuel_use` has a key for every day in `{2, …, study_duration}`;
day 1 of the fuel series and the absence of extra day keys are not
guaranteed, and fuel values may be negative. -/
theorem C2_daily_coverage :
    (∀ (ts : List ℤ) (evs : List (ℕ × ℕ)) (out : List (ℕ × ℚ)),
        daily_cooking_time ts evs = some out →
        (∀ d : ℕ, 1 ≤ d → (d : ℤ) ≤ studyDays ts → d ∈ dictKeys out) ∧
        ∀ v ∈ dictVals out, 0 ≤ v) ∧
    (∀ (ts : List ℤ) (col : List ℚ) (wc : List ℕ) (out : List (ℕ × ℚ)),
        daily_fuel_use ts col wc = some out →
        ∀ d : ℕ, 2 ≤ d → (d : ℤ) ≤ studyDays ts → d ∈ dictKeys out) :=
  ⟨daily_cooking_time_spec, daily_fuel_use_spec⟩

/-- Witness for C2 on a 1-day study with one event and on a 2-day study
with one significant weight change. -/
theorem C2_daily_coverage_witness :
    daily_cooking_time [0, 90000] [(0, 1)] = some [(1, 0), (2, 60)] ∧
    (1 ∈ dictKeys [(1, (0 : ℚ)), (2, 60)]) ∧
    daily_fuel_use [0, 90000, 172800] [5, 10, 5] [1] = some [(2, -10)] ∧
    (2 ∈ dictKeys [((2 : ℕ), (-10 : ℚ))]) := by
  have hc : daily_cooking_time [0, 90000] [(0, 1)] = some [(1, 0), (2, 60)] := by
    norm_num [daily_cooking_time, dctLoop, pyDays, pySeconds, backfillCook, updateD, dlookup]
  have hf : daily_fuel_use [0, 90000, 172800] [5, 10, 5] [1] = some [(2, -10)] := by
    norm_num [daily_fuel_use, dfuLoop, pyDays, backfillFuel, updateD, dlookup]
  refine ⟨hc, ?_, hf, ?_⟩
  · exact (C2_daily_coverage.1 [0, 90000] [(0, 1)] _ hc).1 1 le_rfl (by decide)
  · exact C2_daily_coverage.2 [0, 90000, 172800] [5, 10, 5] [1] _ hf 2 le_rfl (by decide)

/-- Counterexample refuting C2 as stated: the full `fuel_usage` pipeline
on a 2-day study whose only significant change happens on the second day
produces the day-bucket series `{2 ↦ -10}` — day 1 is missing (the key
set is not `{1, 2}`) and the recorded value is negative. -/
theorem C2_daily_coverage_counterexample :
    fuelUsageChannel [0, 90000, 172800] [5, 10, 5] (1 / 5) = some [(2, -10)] ∧
    studyDays [0, 90000, 172800] = 2 ∧
    (1 : ℕ) ∉ dictKeys [((2 : ℕ), (-10 : ℚ))] ∧
    ¬ (0 : ℚ) ≤ -10 := by
  refine ⟨?_, by decide, by decide, by norm_num⟩
  norm_num [fuelUsageChannel, find_significant_changes, fscGo, findPeaks, strictLocalMaxima,
    List.insertionSort, List.orderedInsert, keepByDistance, natDist, peakPriority, pyAbs,
    daily_fuel_use, dfuLoop, pyDays, backfillFuel, updateD, dlookup]

/-- C3 (amended).  For every non-empty, strictly increasing, in-range
candidate sequence, `find_significant_changes` computes exactly the
claim's filter: keep the first candidate, keep each later candidate iff
its reading differs from the last kept reading by at least the threshold
(updating the last kept reading on keep), and afterwards append the
channel's final index exactly when the final reading is strictly below
the last kept reading — with the amendment that the final-sample append
only happens when there are at least two candidates, because the code's
final-sample check lives inside the loop over `peaks[1:]`. -/
theorem C3_significant_change_filter (col : List ℚ) (thr : ℚ) (peaks : List ℕ)
    (hne : peaks ≠ []) (hcol : col ≠ []) (hin : ∀ i ∈ peaks, i < col.length)
    (hpw : List.Pairwise (· < ·) peaks) :
    find_significant_changes col thr peaks = some (sigChangesSpec col thr peaks) :=
  fsc_eq_spec col thr peaks hne hcol hin hpw

/-- Witness for C3 at the fuel channel `[0, 5, 3, 4, 1]` with candidates
`[1, 3]` and threshold `1/5`. -/
theorem C3_significant_change_filter_witness :
    (([1, 3] : List ℕ) ≠ []) ∧
    (([0, 5, 3, 4, 1] : List ℚ) ≠ []) ∧
    (∀ i ∈ ([1, 3] : List ℕ), i < ([0, 5, 3, 4, 1] : List ℚ).length) ∧
    List.Pairwise (· < ·) ([1, 3] : List ℕ) ∧
    find_significant_changes [0, 5, 3, 4, 1] (1 / 5) [1, 3] =
      some (sigChangesSpec [0, 5, 3, 4, 1] (1 / 5) [1, 3]) :=
  ⟨by decide, by decide, by decide, by decide,
    C3_significant_change_filter [0, 5, 3, 4, 1] (1 / 5) [1, 3]
      (by decide) (by decide) (by decide) (by decide)⟩

/-- Counterexample refuting C3 as stated: on the channel `[0, 5, 2]` the
peak detector yields the singleton candidate list `[1]`; the final sample
(index 2, reading 2) is strictly below the last kept reading 5, yet the
filter returns `[1]` without appending the final index, because the
final-sample check sits inside the loop over `peaks[1:]`, which a
singleton candidate list never enters. -/
theorem C3_significant_change_counterexample :
    findPeaks [0, 5, 2] 1 1 = [1] ∧
    find_significant_changes [0, 5, 2] (1 / 5) [1] = some [1] ∧
    ([0, 5, 2] : List ℚ).getD 2 0 < ([0, 5, 2] : List ℚ).getD 1 0 ∧
    (2 : ℕ) ∉ ([1] : List ℕ) :=
  ⟨by decide, by decide, by norm_num, by decide⟩

/-- C4 (amended).  For list-valued subject requests, the stove check
raises exactly when the list is empty or contains any name outside the
configured stove list, whereas the fuel check silently drops unknown
names and raises only when no requested name is configured — so a fuel
request mixing known and unknown names does not raise. -/
theorem C4_unknown_subject (stoves fuels xs : List String) :
    (isErr (check_stove_type stoves (.list xs)) = true ↔
      xs = [] ∨ ∃ x ∈ xs, x ∉ stoves) ∧
    (isErr (check_fuel_type fuels (.list xs)) = true ↔
      xs.filter (fun x => decide (x ∈ fuels)) = []) :=
  ⟨check_stove_type_err_iff stoves xs, check_fuel_type_err_iff fuels xs⟩

/-- Witness for C4: an unknown stove name raises. -/
theorem C4_unknown_subject_witness :
    isErr (check_stove_type ["wood stove"] (.list ["bad"])) = true :=
  (C4_unknown_subject ["wood stove"] [] ["bad"]).1.mpr
    (Or.inr ⟨"bad", by decide, by decide⟩)

/-- Counterexample refuting C4 as stated: requesting the fuels
`["wood", "lava"]` when only `"wood"` is configured does not raise — the
unknown name `"lava"` is silently dropped and the computation proceeds
with `["wood"]`. -/
theorem C4_unknown_subject_counterexample :
    ("lava" ∉ (["wood"] : List String)) ∧
    check_fuel_type ["wood"] (.list ["wood", "lava"]) = .ok ["wood"] ∧
    isErr (check_fuel_type ["wood"] (.list ["wood", "lava"])) = false :=
  ⟨by decide, rfl, rfl⟩

/-- C5 (code bug).  The docstrings of `cooking_events` and
`check_stove_type` promise that a single stove may be passed as a plain
string and several stoves as a list, but the code contradicts both:
`cooking_events` raises on any list argument (line 152), and
`check_stove_type` iterates a non-`"All"` string character by character,
so every configured multi-character stove name passed as a plain string
raises `'<first char> not found in data set.'`; only the `"All"`
sentinel behaves as documented. -/
theorem C5_subject_argument_bug :
    check_stove_type ["stove1"] (.str "stove1") = .error "s not found in data set." ∧
    cooking_events_check ["stove1"] (.list ["stove1"]) =
      .error "Must input fuel type as a string!" ∧
    check_stove_type ["stove1"] (.str "All") = .ok ["stove1"] ∧
    check_fuel_type ["wood"] (.str "wood") = .error "d not found in data set." :=
  ⟨rfl, rfl, rfl, rfl⟩

/-- C6 (amended).  For every non-empty, strictly increasing, in-range
candidate sequence, the filtered output of `find_significant_changes` has
length at most the candidate count plus one (the final-sample append can
exceed the input length by one), and the first candidate is always the
first element of the output. -/
theorem C6_thinning_bounds (col : List ℚ) (thr : ℚ) (p0 : ℕ) (rest : List ℕ)
    (out : List ℕ) (hcol : col ≠ []) (hin : ∀ i ∈ p0 :: rest, i < col.length)
    (hpw : List.Pairwise (· < ·) (p0 :: rest))
    (h : find_significant_changes col thr (p0 :: rest) = some out) :
    out.length ≤ (p0 :: rest).length + 1 ∧ out.head? = some p0 := by
  rw [fsc_eq_spec col thr (p0 :: rest) (by simp) hcol hin hpw] at h
  obtain rfl : sigChangesSpec col thr (p0 :: rest) = out := Option.some_inj.mp h
  obtain ⟨t, ht, hlen⟩ := keepFold_exists_suffix col thr rest (col.getD p0 0) [p0]
  simp only [sigChangesSpec]
  by_cases hc : (rest ≠ [] ∧
      col.getD (col.length - 1) 0 < (keepFold col thr rest (col.getD p0 0) [p0]).2)
  · rw [if_pos hc]
    constructor
    · rw [ht]
      simp only [List.length_append, List.length_cons, List.length_nil]
      omega
    · rw [ht]
      simp
  · rw [if_neg hc]
    constructor
    · rw [ht]
      simp only [List.length_append, List.length_cons, List.length_nil]
      omega
    · rw [ht]
      simp

/-- Witness for C6 at the channel `[0, 5, 3, 4, 1]` with candidates
`[1, 3]`, whose filtered output is `[1, 3, 4]`. -/
theorem C6_thinning_bounds_witness :
    (([0, 5, 3, 4, 1] : List ℚ) ≠ []) ∧
    ([1, 3, 4] : List ℕ).length ≤ ([1, 3] : List ℕ).length + 1 ∧
    ([1, 3, 4] : List ℕ).head? = some 1 := by
  refine ⟨by decide, ?_⟩
  exact C6_thinning_bounds [0, 5, 3, 4, 1] (1 / 5) 1 [3] [1, 3, 4]
    (by decide) (by decide) (by decide)
    (by norm_num [find_significant_changes, fscGo, pyAbs])

/-- Counterexample refuting C6 as stated: on the channel `[0, 5, 3, 4, 1]`
the detector yields two candidates `[1, 3]` but the filter returns the
three indices `[1, 3, 4]` — the filtered length exceeds the candidate
count. -/
theorem C6_thinning_counterexample :
    findPeaks [0, 5, 3, 4, 1] 1 1 = [1, 3] ∧
    find_significant_changes [0, 5, 3, 4, 1] (1 / 5) [1, 3] = some [1, 3, 4] ∧
    ¬ ([1, 3, 4] : List ℕ).length ≤ ([1, 3] : List ℕ).length := by
  refine ⟨by decide, ?_, by decide⟩
  norm_num [find_significant_changes, fscGo, pyAbs]

/-- C7 (amended).  `Household.__init__` validates only
`time_between_events` and `temp_threshold` (each must be a nonnegative
`int`, so nonnegative non-integer numbers are rejected);
`weight_threshold` is never validated — construction succeeds for any
value of it, including negative ones. -/
theorem C7_threshold_validation :
    (∀ t tbe w w' : PyNum,
      initThresholdsCheck t tbe w = initThresholdsCheck t tbe w') ∧
    (∀ t tbe w : PyNum,
      initThresholdsCheck t tbe w = .ok () ↔
        isNonnegInt tbe = true ∧ isNonnegInt t = true) := by
  constructor
  · intro t tbe w w'
    rfl
  · intro t tbe w
    unfold initThresholdsCheck
    by_cases h1 : isNonnegInt tbe <;> by_cases h2 : isNonnegInt t <;> simp [h1, h2]

/-- Witness for C7: with both validated thresholds nonnegative integers,
construction succeeds. -/
theorem C7_threshold_validation_witness :
    initThresholdsCheck (.int 0) (.int 0) (.float 99) = .ok () :=
  (C7_threshold_validation.2 (.int 0) (.int 0) (.float 99)).mpr ⟨by decide, by decide⟩

/-- Counterexample refuting C7 as stated: a negative `weight_threshold`
(`-1.0`) is accepted at construction, and a nonnegative non-integer
`temp_threshold` (`1.5`) is rejected. -/
theorem C7_threshold_counterexample :
    initThresholdsCheck (.int 15) (.int 30) (.float (-1)) = .ok () ∧
    ((-1 : ℚ) < 0) ∧
    initThresholdsCheck (.float (3 / 2)) (.int 30) (.float (1 / 5)) =
      .error "The temperature threshold must be a positive integer!" ∧
    ((0 : ℚ) ≤ 3 / 2) :=
  ⟨rfl, by norm_num, rfl, by norm_num⟩

/-- C8.  The constructor accepts zero for both `temp_threshold` and
`time_between_events`, and the spec-modelled peak detector is total and,
in the degenerate configuration `h = 0`, `d = 0`, returns exactly the
strict local maxima of any channel with nonnegative readings (an empty
channel yields the empty sequence). -/
theorem C8_peak_detector_degenerate :
    initThresholdsCheck (.int 0) (.int 0) (.float (1 / 5)) = .ok () ∧
    findPeaks [] 0 0 = [] ∧
    ∀ col : List ℚ, (∀ v ∈ col, 0 ≤ v) → findPeaks col 0 0 = strictLocalMaxima col :=
  ⟨rfl, by decide, findPeaks_zero⟩

/-- Witness for C8 at the concrete nonnegative channel `[0, 2, 1]`. -/
theorem C8_peak_detector_degenerate_witness :
    (∀ v ∈ ([0, 2, 1] : List ℚ), 0 ≤ v) ∧
    findPeaks [0, 2, 1] 0 0 = strictLocalMaxima [0, 2, 1] :=
  ⟨by decide, C8_peak_detector_degenerate.2.2 [0, 2, 1] (by decide)⟩

/-- C9.  For every fuel channel on which the permissive peak detection
(height 1, distance 1) yields no candidate index — e.g. a constant
channel — and for every timestamp series and threshold, the
significant-change filter fails at `peaks[0]` (an uncaught indexing
error, embedded as `none`) and `fuel_usage`'s per-channel pipeline
yields no row at all, rather than a zero-filled row for that fuel. -/
theorem C9_empty_candidates_error (ts : List ℤ) (col : List ℚ) (thr : ℚ)
    (h : findPeaks col 1 1 = []) :
    find_significant_changes col thr (findPeaks col 1 1) = none ∧
    fuelUsageChannel ts col thr = none := by
  have h1 : find_significant_changes col thr (findPeaks col 1 1) = none := by
    rw [h]
    rfl
  refine ⟨h1, ?_⟩
  unfold fuelUsageChannel
  rw [h1]

/-- Witness for C9 on the constant channel `[5, 5, 5, 5]`, whose
permissive peak detection yields no candidate. -/
theorem C9_empty_candidates_error_witness :
    findPeaks ([5, 5, 5, 5] : List ℚ) 1 1 = [] ∧
    find_significant_changes [5, 5, 5, 5] (1 / 5) (findPeaks [5, 5, 5, 5] 1 1) = none ∧
    fuelUsageChannel [0, 1, 2, 3] [5, 5, 5, 5] (1 / 5) = none :=
  ⟨by decide,
    (C9_empty_candidates_error [0, 1, 2, 3] [5, 5, 5, 5] (1 / 5) (by decide)).1,
    (C9_empty_candidates_error [0, 1, 2, 3] [5, 5, 5, 5] (1 / 5) (by decide)).2⟩

/-- C10.  For a single cooking event spanning timestamps `a ≤ b`, the
total minutes recorded by `daily_cooking_time` equal the elapsed seconds
modulo 24 hours divided by 60 — `(end - start).seconds / 60` — so when
the true duration reaches 24 hours the whole-day part (1440 minutes per
elapsed day) is silently dropped from the recorded total. -/
theorem C10_duration_modulo_day (a b : ℤ) :
    (daily_cooking_time [a, b] [(0, 1)]).map sumVals
      = some (((pySeconds (b - a) : ℤ) : ℚ) / 60) ∧
    (86400 ≤ b - a →
      ((pySeconds (b - a) : ℤ) : ℚ) / 60
        = ((b - a : ℤ) : ℚ) / 60 - 1440 * ((pyDays (b - a) : ℤ) : ℚ) ∧
      1 ≤ pyDays (b - a)) := by
  constructor
  · have h0 : ([a, b] : List ℤ).get? 0 = some a := rfl
    have h1 : ([a, b] : List ℤ).get? ([a, b].length - 1) = some b := rfl
    have h2 : ([a, b] : List ℤ).get? 1 = some b := rfl
    simp only [daily_cooking_time, dctLoop, h0, h1, h2, if_true]
    by_cases hd : pyDays (b - a) ≠ ((0 : ℕ) : ℤ)
    · rw [if_pos hd]
      have hu1 : updateD [] 1 (0 : ℚ) = [(1, 0)] := rfl
      have hu2 : updateD [(1, (0 : ℚ))] (1 + 1) ((0 : ℚ) + (pySeconds (b - a) : ℚ) / 60) =
          [(1, 0), (2, 0 + (pySeconds (b - a) : ℚ) / 60)] := rfl
      simp only [hu1, hu2]
      by_cases hn : (([(1, (0 : ℚ)), (2, 0 + (pySeconds (b - a) : ℚ) / 60)].length : ℤ))
          ≠ pyDays (b - a)
      · rw [if_pos hn]
        simp only [Option.map_some', sumVals_backfillCook]
        simp [sumVals]
      · rw [if_neg hn]
        simp [sumVals]
    · rw [if_neg hd]
      have hu1 : updateD [] (0 + 1) ((0 : ℚ) + (pySeconds (b - a) : ℚ) / 60) =
          [(1, 0 + (pySeconds (b - a) : ℚ) / 60)] := rfl
      simp only [hu1]
      by_cases hn : (([(1, (0 : ℚ) + (pySeconds (b - a) : ℚ) / 60)].length : ℤ))
          ≠ pyDays (b - a)
      · rw [if_pos hn]
        simp only [Option.map_some', sumVals_backfillCook]
        simp [sumVals]
      · rw [if_neg hn]
        simp [sumVals]
  · intro h86
    constructor
    · have hid : pySeconds (b - a) = (b - a) - 86400 * pyDays (b - a) := by
        simp only [pySeconds, pyDays]
        omega
      rw [hid]
      push_cast
      ring
    · simp only [pyDays]
      omega

/-- Witness for C10 at a 100000-second event: the recorded total is
`(100000 mod 86400) / 60` minutes and one whole day is dropped. -/
theorem C10_duration_modulo_day_witness :
    (daily_cooking_time [0, 100000] [(0, 1)]).map sumVals
      = some (((pySeconds (100000 - 0) : ℤ) : ℚ) / 60) ∧
    (86400 : ℤ) ≤ 100000 - 0 ∧ 1 ≤ pyDays (100000 - 0) :=
  ⟨(C10_duration_modulo_day 0 100000).1, by decide,
    ((C10_duration_modulo_day 0 100000).2 (by decide)).2⟩
